import Mathlib

/-!
Shallow embedding of the transaction-computation core of the mamba package
manager fork (libmamba): the cooperative interruption machinery
(`thread_utils.cpp`), the structured error model (`error_handling.cpp`) and
the `ObjTransaction` wrapper over libsolv transactions (`transaction.cpp`),
together with proofs of the specified properties.

The file has two parts: first the definitions embedding the source, then the
lemmas and theorems about them.
-/

namespace Mamba

/-! ## Part 1: definitions -/

/-! ### Thread interruption (`thread_utils.cpp`)

The source keeps a process-wide `std::atomic<bool> sig_interrupted(false)`.
We embed the flag as an explicit boolean state threaded through the
operations that may touch it. -/

/-- Initial value of the `sig_interrupted` atomic:
`std::atomic<bool> sig_interrupted(false)`. -/
def sig_interrupted_init : Bool := false

/-- Source: `is_sig_interrupted() { return sig_interrupted.load(); }` -/
def is_sig_interrupted (sig_interrupted : Bool) : Bool :=
  sig_interrupted

/-- Source: `set_sig_interrupted() { sig_interrupted.store(true); }` -/
def set_sig_interrupted (_sig_interrupted : Bool) : Bool :=
  true

/-- The distinguished cancellation signal thrown by `interruption_point`:
`throw thread_interrupted()`.  It is its own type, not a `mamba_error`. -/
inductive thread_interrupted : Type
  | mk : thread_interrupted
deriving DecidableEq, Repr

/-- Source: `interruption_point() { if (is_sig_interrupted()) throw thread_interrupted(); }`
The thrown cancellation signal is modelled as the `Except.error` branch. -/
def interruption_point (sig_interrupted : Bool) : Except thread_interrupted Unit :=
  if is_sig_interrupted sig_interrupted then
    Except.error thread_interrupted.mk
  else
    Except.ok ()

/-- The operations of the core that execute with access to the interruption
flag.  `sigintHandler` is the lambda installed by `set_default_signal_handler`
(it calls `set_sig_interrupted`); the remaining operations read the flag or do
not touch it at all. -/
inductive CoreOp : Type
  | sigintHandler
  | setSigInterrupted
  | isSigInterrupted
  | interruptionPoint
  | increaseThreadCount
  | decreaseThreadCount
  | getThreadCount
  | waitForAllThreads
deriving DecidableEq, Repr

/-- Effect of one core operation on the `sig_interrupted` flag, read off the
source: only `set_sig_interrupted` (directly or via the SIGINT handler) writes
the flag, and it always stores `true`. -/
def CoreOp.applyFlag (flag : Bool) : CoreOp → Bool
  | .sigintHandler => set_sig_interrupted flag
  | .setSigInterrupted => set_sig_interrupted flag
  | .isSigInterrupted => flag
  | .interruptionPoint => flag
  | .increaseThreadCount => flag
  | .decreaseThreadCount => flag
  | .getThreadCount => flag
  | .waitForAllThreads => flag

/-- Flag value after running a sequence of core operations. -/
def runFlag (flag : Bool) (ops : List CoreOp) : Bool :=
  ops.foldl CoreOp.applyFlag flag

/-! ### Interruption guard (`thread_utils.cpp`)

```
interruption_guard::~interruption_guard()
{
    wait_for_all_threads();
    if (is_sig_interrupted() || std::uncaught_exceptions() > 0)
    {
        const auto result = safe_invoke(std::move(m_cleanup_function));
        if (!result) { LOG_ERROR << ...; }
    }
}
```
We model the destructor's externally visible behaviour in two ways: as the
ordered list of actions it performs (for the sequencing properties), and as a
state transformer on the registered cleanup callback (for the single-invocation
and error-swallowing properties). -/

/-- Observable actions of `interruption_guard::~interruption_guard`. -/
inductive GuardAction : Type
  | waitAllThreads
  | invokeCleanup
deriving DecidableEq, Repr

/-- Action sequence of the guard's destructor given the interruption flag and
whether an exception is propagating out of the scope
(`std::uncaught_exceptions() > 0`). -/
def guard_dtor_actions (sig_interrupted : Bool) (unwinding : Bool) : List GuardAction :=
  GuardAction.waitAllThreads ::
    (if is_sig_interrupted sig_interrupted || unwinding then
      [GuardAction.invokeCleanup]
    else
      [])

/-- The predicate with which `wait_for_all_threads` waits:
`clean_var.wait(lk, []() { return thread_count == 0; });` — the wait can only
return in a state where the thread counter is zero. -/
def wait_for_all_threads_returns (thread_count : Int) : Prop :=
  thread_count = 0

instance (c : Int) : Decidable (wait_for_all_threads_returns c) := by
  unfold wait_for_all_threads_returns
  infer_instance

/-- Modelled from the spec: `safe_invoke` is declared in
`mamba/core/invoke.hpp`, which is not among the sources; per the spec it
invokes a callable and catches any failure the callable raises, returning it
as an error value instead of propagating it.  A callable's behaviour is
modelled as the `Except` outcome invoking it produces; `none` models an empty
(moved-from) `std::function`, whose invocation raises
`std::bad_function_call`, likewise caught and returned as an error value. -/
def safe_invoke (f : Option (Except String Unit)) : Except String Unit :=
  match f with
  | none => Except.error "bad_function_call"
  | some outcome => outcome

/-- State of `interruption_guard`: the single globally registered cleanup
callback `static std::function<void()> m_cleanup_function`, modelled by the
outcome its invocation would produce (`none` = empty function, e.g. after
having been moved from). -/
structure GuardState : Type where
  m_cleanup_function : Option (Except String Unit)
deriving Repr

/-- Result of running the guard destructor's conditional cleanup branch. -/
structure GuardExitResult : Type where
  /-- the guard state afterwards (`std::move` empties the stored function) -/
  state : GuardState
  /-- how many times the registered callback's body actually ran -/
  invocations : Nat
  /-- `LOG_ERROR` output -/
  logs : List String
  /-- a failure propagating out of the destructor, if any -/
  escaped : Option String
deriving Repr

/-- The guard destructor as a state transformer: if the interruption flag is
set or an exception is propagating, it moves the registered callback out,
invokes it through `safe_invoke`, and logs (never rethrows) a failure;
otherwise it does nothing.  Cleanup failures are captured in `logs`, never in
`escaped`. -/
def interruption_guard_dtor (g : GuardState) (sig_interrupted : Bool) (unwinding : Bool) :
    GuardExitResult :=
  if is_sig_interrupted sig_interrupted || unwinding then
    let result := safe_invoke g.m_cleanup_function
    { state := { m_cleanup_function := none }
      invocations := if g.m_cleanup_function.isSome then 1 else 0
      logs :=
        match result with
        | Except.error e => ["interruption_guard invocation failed: " ++ e]
        | Except.ok _ => []
      escaped := none }
  else
    { state := g, invocations := 0, logs := [], escaped := none }

/-! ### Thread counter (`thread_utils.cpp`)

`increase_thread_count` / `decrease_thread_count` mutate the process-wide
`int thread_count` under `clean_mutex`; the mutex serialises the updates, so
an execution is a single interleaved sequence of counter events.  We embed an
execution as a trace of events, each recording which worker registered or
deregistered. -/

/-- One serialised counter event: worker `w` calling `increase_thread_count`
(`inc`) or `decrease_thread_count` (`dec`). -/
inductive WEvent : Type
  | inc (w : Nat)
  | dec (w : Nat)
deriving DecidableEq, Repr

/-- The worker a counter event belongs to. -/
def WEvent.wid : WEvent → Nat
  | .inc w => w
  | .dec w => w

/-- Effect of one event on `thread_count`: `++thread_count` or
`--thread_count`. -/
def WEvent.applyCount (c : Int) : WEvent → Int
  | .inc _ => c + 1
  | .dec _ => c - 1

/-- Value of `thread_count` after a trace of events, starting from the
initialiser `int thread_count = 0`. -/
def threadCount (tr : List WEvent) : Int :=
  tr.foldl WEvent.applyCount 0

/-- A trace produced by `N` workers that each increment the counter once on
start and decrement it exactly once on end, the decrement coming after the
increment.  All conditions are bounded, so the predicate is decidable and can
be evaluated on concrete traces. -/
def wfTrace (N : Nat) (tr : List WEvent) : Prop :=
  tr.length = 2 * N
    ∧ (∀ e ∈ tr, e.wid < N)
    ∧ (∀ w < N, tr.count (WEvent.inc w) = 1 ∧ tr.count (WEvent.dec w) = 1)
    ∧ (∀ w < N, ∀ k < tr.length,
        (tr.take k).count (WEvent.dec w) ≤ (tr.take k).count (WEvent.inc w))

instance (N : Nat) (tr : List WEvent) : Decidable (wfTrace N tr) := by
  unfold wfTrace
  infer_instance

/-! ### Structured errors (`error_handling.cpp`)

`mamba_aggregated_error` stores a list of `mamba_error`s and a mutable cached
message; `what()` computes the combined message on first call and thereafter
returns the cache.  `std::string` is embedded as a character sequence and the
mutation of the `mutable` cache as explicit state passing. -/

/-- A C++ `std::string`, embedded as its character sequence. -/
abbrev Str := List Char

/-- Source: `constexpr const char* m_base_message = "Many errors occurred:\n";` -/
def m_base_message : Str := "Many errors occurred:\n".data

/-- Type `mamba_aggregated_error`: the stored error list (represented by the
messages `er.what()` of its entries, which is all `what()` reads from them)
and the lazily filled cache `mutable std::string m_aggregated_message`. -/
structure mamba_aggregated_error : Type where
  m_error_list : List Str
  m_aggregated_message : Str
deriving DecidableEq, Repr

/-- The constructor
`mamba_aggregated_error(error_list_t&&)` stores the list and leaves
`m_aggregated_message` empty. -/
def mamba_aggregated_error.ofList (l : List Str) : mamba_aggregated_error :=
  { m_error_list := l, m_aggregated_message := [] }

/-- The combined message built by the loop in `what()`:
start from `m_base_message`, then for each error append `er.what()` and
`"\n"`. -/
def aggregate_message (l : List Str) : Str :=
  l.foldl (fun acc m => acc ++ m ++ ['\n']) m_base_message

/-- Method `mamba_aggregated_error::what()`: if the cache is empty, fill it with the
combined message; return the cache.  Returns the message together with the
updated object (the cache field is `mutable` in the source). -/
def mamba_aggregated_error.what (e : mamba_aggregated_error) :
    Str × mamba_aggregated_error :=
  if e.m_aggregated_message = [] then
    let msg := aggregate_message e.m_error_list
    (msg, { e with m_aggregated_message := msg })
  else
    (e.m_aggregated_message, e)

/-- Mutation of the underlying error list after construction (the scenario the
caching quirk is about): replaces the list, leaving the cache as is. -/
def mamba_aggregated_error.setList (e : mamba_aggregated_error) (l : List Str) :
    mamba_aggregated_error :=
  { e with m_error_list := l }

/-- String `s` contains the strings `ms` as (possibly overlapping-free) substrings in
the given order: `s = pre ++ m1 ++ rest1`, `rest1` containing the remaining
ones in order, and so on. -/
def containsInOrder : Str → List Str → Prop
  | _, [] => True
  | s, m :: ms => ∃ pre rest, s = pre ++ m ++ rest ∧ containsInOrder rest ms

/-! ### Transactions (`transaction.cpp`)

`ObjTransaction` wraps a libsolv `::Transaction*`.  The embedding keeps the
observable content: the identity of the `::Pool` the transaction is bound to
(`raw()->pool`) and the step ids (`raw()->steps`).  The pool itself carries an
identity, its solvables (with their `installed` flag, which is what
`step_newer` / `step_olders` test) and the `requires` edges used by the
ordering algorithm. -/

/-- A libsolv solvable, reduced to what the embedded operations read. -/
structure Solvable : Type where
  installed : Bool
deriving DecidableEq, Repr

/-- A libsolv pool: an identity standing for the `::Pool*` address, the
solvables by id, and the dependency edges `(a, b)` meaning "`a` requires
`b`". -/
structure ObjPool : Type where
  ptr : Nat
  solvables : List (Nat × Solvable)
  deps : List (Nat × Nat)
deriving DecidableEq, Repr

/-- Method `ObjPool::get_solvable`: the solvable with the given id, if any. -/
def ObjPool.get_solvable (pool : ObjPool) (id : Nat) : Option Solvable :=
  (pool.solvables.find? (fun p => p.1 = id)).map Prod.snd

/-- Whether the solvable with the given id exists and is installed. -/
def ObjPool.installedId (pool : ObjPool) (id : Nat) : Bool :=
  match pool.get_solvable id with
  | some s => s.installed
  | none => false

/-- The wrapped transaction: the pool it is bound to (`raw()->pool`) and its
step ids (`raw()->steps`). -/
structure ObjTransaction : Type where
  pool : Nat
  steps : List Nat
deriving DecidableEq, Repr

/-- Failures of transaction operations: a failed `assert` (programming
contract violation) or the spec's `internal_failure` report for a dependency
cycle during ordering. -/
inductive TransactionFailure : Type
  | contractViolation
  | internalFailure
deriving DecidableEq, Repr

/-- Helper `assert_same_pool`: `assert(pool.raw() == trans.raw()->pool)` — a failed
assertion is a contract violation, not a user-facing error. -/
def assert_same_pool (pool : ObjPool) (trans : ObjTransaction) :
    Except TransactionFailure Unit :=
  if pool.ptr = trans.pool then Except.ok () else Except.error .contractViolation

/-- A libsolv solver result: the pool it is bound to and its decision queue. -/
structure ObjSolver : Type where
  pool : Nat
  decisions : List Nat
deriving DecidableEq, Repr

/-- Method `ObjTransaction::from_solver`: builds the transaction from the solver's
decisions (`solver_create_transaction`, which binds it to the solver's pool),
then `assert_same_pool(pool, trans)`. -/
def ObjTransaction.from_solver (pool : ObjPool) (solver : ObjSolver) :
    Except TransactionFailure ObjTransaction :=
  let trans : ObjTransaction := { pool := solver.pool, steps := solver.decisions }
  (assert_same_pool pool trans).map (fun _ => trans)

/-- Method `ObjTransaction::from_solvables`: `transaction_create_decisionq(pool.raw(),
solvables.raw(), nullptr)` — builds a transaction bound to the given pool from
the caller-supplied solvable ids.  The source performs no assertion here: the
binding is established by construction. -/
def ObjTransaction.from_solvables (pool : ObjPool) (solvables : List Nat) :
    ObjTransaction :=
  { pool := pool.ptr, steps := solvables }

/-- Method `ObjTransaction::step_type`: assert the pool, then delegate to libsolv's
`transaction_type`, embedded as the uninterpreted function `ty` (mode and step
to step type). -/
def ObjTransaction.step_type (ty : Nat → Nat → Nat) (trans : ObjTransaction)
    (pool : ObjPool) (step : Nat) (mode : Nat) : Except TransactionFailure Nat :=
  (assert_same_pool pool trans).map (fun _ => ty step mode)

/-- Method `ObjTransaction::step_newer`: assert the pool; if the step's solvable
exists and is installed, ask libsolv's `transaction_obs_pkg` (embedded as the
uninterpreted function `obs`) and return its answer when it is non-zero;
in every other case return no result. -/
def ObjTransaction.step_newer (obs : Nat → Nat) (trans : ObjTransaction)
    (pool : ObjPool) (step : Nat) : Except TransactionFailure (Option Nat) :=
  (assert_same_pool pool trans).map fun _ =>
    match pool.get_solvable step with
    | some solvable =>
        if solvable.installed then
          (if obs step ≠ 0 then some (obs step) else none)
        else
          none
    | none => none

/-- Method `ObjTransaction::step_olders`: assert the pool; if the step's solvable
exists and is not installed, ask libsolv's `transaction_all_obs_pkgs`
(embedded as the uninterpreted function `allObs`); otherwise the output queue
stays empty. -/
def ObjTransaction.step_olders (allObs : Nat → List Nat) (trans : ObjTransaction)
    (pool : ObjPool) (step : Nat) : Except TransactionFailure (List Nat) :=
  (assert_same_pool pool trans).map fun _ =>
    match pool.get_solvable step with
    | some solvable => if solvable.installed then [] else allObs step
    | none => []

/-- Method `ObjTransaction::classify`: assert the pool, then delegate to libsolv's
`transaction_classify` (uninterpreted `cls`). -/
def ObjTransaction.classify (cls : Nat → List Nat) (trans : ObjTransaction)
    (pool : ObjPool) (mode : Nat) : Except TransactionFailure (List Nat) :=
  (assert_same_pool pool trans).map (fun _ => cls mode)

/-- Method `ObjTransaction::classify_pkgs`: assert the pool, then delegate to
libsolv's `transaction_classify_pkgs` (uninterpreted `clp`). -/
def ObjTransaction.classify_pkgs (clp : Nat → Nat → Nat → Nat → List Nat)
    (trans : ObjTransaction) (pool : ObjPool) (ty from_id to_id mode : Nat) :
    Except TransactionFailure (List Nat) :=
  (assert_same_pool pool trans).map (fun _ => clp ty from_id to_id mode)

/-! ### Ordering

`ObjTransaction::order` asserts the pool and calls libsolv's
`transaction_order`, whose code is not among the sources.  The algorithm is
modelled from the spec (§4.3). -/

/-- Modelled from the spec: the precedence constraint of §4.3 derived from the
universe's `requires` edges.  `mustPrecede pool x y` holds when step `x` has
to be executed before step `y`: for an edge "`a` requires `b`" with both steps
installs (solvables not installed yet, i.e. being added), `b` precedes `a`;
with both steps removals (installed solvables being erased), `a` precedes
`b`. -/
def mustPrecede (pool : ObjPool) (x y : Nat) : Bool :=
  (pool.deps.contains (y, x) && !pool.installedId x && !pool.installedId y)
    || (pool.deps.contains (x, y) && pool.installedId x && pool.installedId y)

/-- Modelled from the spec: the steps with no unexecuted predecessor — the
candidates the topological sort may emit next. -/
def readySteps (pool : ObjPool) (remaining : Finset Nat) : Finset Nat :=
  remaining.filter (fun s => ∀ p ∈ remaining, mustPrecede pool p s = false)

/-- Modelled from the spec: Kahn's algorithm with deterministic tie-breaking —
among the ready steps, always emit the smallest step id first.  A state where
steps remain but none is ready is a dependency cycle, reported as a failure
(`internal_failure`), never silently broken.  Fuel-indexed for termination;
`orderSteps` supplies fuel equal to the number of steps. -/
def orderAux (pool : ObjPool) : Nat → Finset Nat → Option (List Nat)
  | 0, remaining => if remaining = ∅ then some [] else none
  | fuel + 1, remaining =>
      if remaining = ∅ then
        some []
      else
        if h : (readySteps pool remaining).Nonempty then
          (orderAux pool fuel (remaining.erase ((readySteps pool remaining).min' h))).map
            (fun l => (readySteps pool remaining).min' h :: l)
        else
          none

/-- Modelled from the spec: the ordered step sequence for a step set, or
`none` on a dependency cycle. -/
def orderSteps (pool : ObjPool) (steps : Finset Nat) : Option (List Nat) :=
  orderAux pool steps.card steps

/-- Method `ObjTransaction::order`: `assert_same_pool(pool, *this)` then
`transaction_order(raw(), flag)`, which rewrites the step sequence in place.
The ordering itself is modelled from the spec (`orderSteps`); the `flag`
selecting named ordering variants is accepted and the base variant is
modelled. -/
def ObjTransaction.order (trans : ObjTransaction) (pool : ObjPool) (_flag : Nat) :
    Except TransactionFailure ObjTransaction :=
  match assert_same_pool pool trans with
  | Except.error e => Except.error e
  | Except.ok _ =>
      match orderSteps pool trans.steps.toFinset with
      | some l => Except.ok { trans with steps := l }
      | none => Except.error .internalFailure

/-! ### Transaction copies (`transaction.cpp`)

The copy constructor calls `transaction_create_clone`, which allocates a fresh
`::Transaction` holding a copy of the step data.  To state the frame property
(mutating the copy leaves the original untouched) we embed the heap of live
`::Transaction` objects as an association list from handles (addresses) to
transaction contents, with a fresh-handle counter. -/

/-- The heap of live `::Transaction` objects. -/
structure SolvMem : Type where
  data : List (Nat × ObjTransaction)
  next : Nat
deriving DecidableEq, Repr

/-- All live handles are below the fresh-handle counter. -/
def SolvMem.wf (m : SolvMem) : Prop :=
  ∀ p ∈ m.data, p.1 < m.next

instance (m : SolvMem) : Decidable (SolvMem.wf m) := by
  unfold SolvMem.wf
  infer_instance

/-- Contents of the transaction object at a handle. -/
def SolvMem.lookup (m : SolvMem) (h : Nat) : Option ObjTransaction :=
  (m.data.find? (fun p => p.1 = h)).map Prod.snd

/-- Overwrite the transaction object at a handle (in-place mutation). -/
def SolvMem.store (m : SolvMem) (h : Nat) (t : ObjTransaction) : SolvMem :=
  { m with data := m.data.map (fun p => if p.1 = h then (h, t) else p) }

/-- Copy constructor `ObjTransaction(const ObjTransaction& other)`:
`transaction_create_clone` — allocate a fresh handle holding a copy of the
step data of the transaction at `h`.  Returns the new heap and the clone's
handle. -/
def copy_construct (m : SolvMem) (h : Nat) : Option (SolvMem × Nat) :=
  (m.lookup h).map fun t =>
    ({ data := (m.next, t) :: m.data, next := m.next + 1 }, m.next)

/-- Running `order` as an in-place mutation of the transaction at a handle (the
source's `order` rewrites `raw()->steps`); on failure the object is left as
is. -/
def order_at (pool : ObjPool) (m : SolvMem) (h : Nat) (flag : Nat) : SolvMem :=
  match m.lookup h with
  | some t =>
      match t.order pool flag with
      | Except.ok t' => m.store h t'
      | Except.error _ => m
  | none => m

/-! ## Part 2: lemmas and theorems -/

/-! ### Interruption flag -/

/-- Once the flag holds `true`, no core operation changes it. -/
lemma applyFlag_true (op : CoreOp) : CoreOp.applyFlag true op = true := by
  cases op <;> rfl

/-- Once the flag holds `true`, it holds `true` after any sequence of core
operations. -/
lemma runFlag_true (ops : List CoreOp) : runFlag true ops = true := by
  induction ops with
  | nil => rfl
  | cons op rest ih =>
      simp only [runFlag, List.foldl_cons, applyFlag_true]
      exact ih

/-- C8: the interruption flag is a write-once latch: it starts `false`,
`set_sig_interrupted` writes `true`, any core operation maps a `true` flag to
`true`, and after a `set_sig_interrupted` every later `is_sig_interrupted`
observation — after any interleaving of core operations — returns `true`. -/
theorem sig_interrupted_write_once_latch :
    sig_interrupted_init = false
    ∧ (∀ flag : Bool, set_sig_interrupted flag = true)
    ∧ (∀ op : CoreOp, CoreOp.applyFlag true op = true)
    ∧ (∀ (flag : Bool) (later : List CoreOp),
        is_sig_interrupted (runFlag (set_sig_interrupted flag) later) = true) := by
  refine ⟨rfl, fun _ => rfl, applyFlag_true, fun flag later => ?_⟩
  simp only [is_sig_interrupted, set_sig_interrupted]
  exact runFlag_true later

/-- C6: `interruption_point` raises the distinguished cancellation signal
`thread_interrupted` exactly when the interruption flag is set; with the flag
unset it returns normally. -/
theorem interruption_point_raises_iff_flag_set :
    (∀ flag : Bool,
        interruption_point flag = Except.error thread_interrupted.mk ↔ flag = true)
    ∧ interruption_point false = Except.ok () := by
  constructor
  · intro flag
    cases flag <;> simp [interruption_point, is_sig_interrupted]
  · rfl

/-! ### Interruption guard -/

/-- C2: on any exit of an `interruption_guard` scope the destructor's first
action is the wait for the worker counter, the cleanup invocation occurs
exactly when the interruption flag is set or an exception is propagating (and
then strictly after the wait), and with the flag unset and no propagating
exception the destructor performs the wait alone — the cleanup callback is
never invoked. -/
theorem guard_dtor_waits_then_conditionally_cleans :
    ∀ sig unwinding : Bool,
      (guard_dtor_actions sig unwinding).head? = some GuardAction.waitAllThreads
      ∧ (GuardAction.invokeCleanup ∈ guard_dtor_actions sig unwinding
          ↔ (is_sig_interrupted sig = true ∨ unwinding = true))
      ∧ (∀ i : Nat,
          (guard_dtor_actions sig unwinding).get? i = some GuardAction.invokeCleanup →
            i = 1)
      ∧ (is_sig_interrupted sig = false ∧ unwinding = false →
          guard_dtor_actions sig unwinding = [GuardAction.waitAllThreads]) := by
  intro sig unwinding
  refine ⟨?_, ?_, ?_, ?_⟩
  · cases sig <;> cases unwinding <;> rfl
  · cases sig <;> cases unwinding <;> simp [guard_dtor_actions, is_sig_interrupted]
  · intro i hi
    match i, hi with
    | 0, hi =>
        exact absurd hi (by cases sig <;> cases unwinding <;> simp [guard_dtor_actions])
    | 1, _ => rfl
    | n + 2, hi =>
        exact absurd hi
          (by cases sig <;> cases unwinding <;>
            simp [guard_dtor_actions, is_sig_interrupted, List.getElem?_cons])
  · rintro ⟨h1, h2⟩
    subst h2
    cases sig with
    | false => rfl
    | true => exact absurd h1 (by simp [is_sig_interrupted])

/-- Concrete instantiation of `guard_dtor_waits_then_conditionally_cleans`
discharging its hypotheses: with the flag set the cleanup slot is index 1,
and with the flag unset and no exception the destructor only waits. -/
theorem guard_dtor_waits_then_conditionally_cleans_witness :
    (1 : Nat) = 1 ∧ guard_dtor_actions false false = [GuardAction.waitAllThreads] :=
  ⟨(guard_dtor_waits_then_conditionally_cleans true false).2.2.1 1 (by decide),
   (guard_dtor_waits_then_conditionally_cleans false false).2.2.2 ⟨rfl, rfl⟩⟩

/-- C7: a failure raised by the guard's cleanup callback never escapes the
destructor (it is logged instead), and across two successive guard exits —
whatever their flags — the callback body runs at most once: the `std::move`
empties the stored function, so a later exit invokes nothing. -/
theorem guard_cleanup_swallows_failures_and_runs_at_most_once :
    ∀ (g : GuardState) (sig1 u1 sig2 u2 : Bool),
      (interruption_guard_dtor g sig1 u1).escaped = none
      ∧ (∀ e : String,
          g.m_cleanup_function = some (Except.error e) →
          (is_sig_interrupted sig1 || u1) = true →
          (interruption_guard_dtor g sig1 u1).logs
            = ["interruption_guard invocation failed: " ++ e])
      ∧ (interruption_guard_dtor g sig1 u1).invocations
          + (interruption_guard_dtor
              (interruption_guard_dtor g sig1 u1).state sig2 u2).invocations ≤ 1 := by
  intro g sig1 u1 sig2 u2
  refine ⟨?_, ?_, ?_⟩
  · by_cases hc : (is_sig_interrupted sig1 || u1) = true <;>
      simp [interruption_guard_dtor, hc]
  · intro e he hc
    simp [interruption_guard_dtor, hc, he, safe_invoke]
  · by_cases hc1 : (is_sig_interrupted sig1 || u1) = true <;>
      by_cases hc2 : (is_sig_interrupted sig2 || u2) = true <;>
      cases hf : g.m_cleanup_function <;>
      simp [interruption_guard_dtor, hc1, hc2, hf]

/-- Concrete instantiation of
`guard_cleanup_swallows_failures_and_runs_at_most_once`: a callback that
fails, with the interruption flag set on both exits. -/
theorem guard_cleanup_swallows_failures_witness :
    (interruption_guard_dtor ⟨some (Except.error "boom")⟩ true false).escaped = none
    ∧ (interruption_guard_dtor ⟨some (Except.error "boom")⟩ true false).logs
        = ["interruption_guard invocation failed: " ++ "boom"]
    ∧ (interruption_guard_dtor ⟨some (Except.error "boom")⟩ true false).invocations
        + (interruption_guard_dtor
            (interruption_guard_dtor ⟨some (Except.error "boom")⟩ true false).state
            true false).invocations ≤ 1 :=
  have h := guard_cleanup_swallows_failures_and_runs_at_most_once
    ⟨some (Except.error "boom")⟩ true false true false
  ⟨h.1, h.2.1 "boom" rfl rfl, h.2.2⟩

/-! ### Aggregated error -/

/-- Unfolding the accumulation loop of `what()`: the fold appends the flattened
per-error parts after the accumulator. -/
lemma aggregate_fold_eq (l : List Str) (acc : Str) :
    l.foldl (fun acc m => acc ++ m ++ ['\n']) acc
      = acc ++ (l.map (fun m => m ++ ['\n'])).flatten := by
  induction l generalizing acc with
  | nil => simp
  | cons m ms ih =>
      simp only [List.foldl_cons, List.map_cons, List.flatten_cons, ih]
      simp [List.append_assoc]

/-- The flattened per-error parts contain the source messages in their
original order, wherever the flattening is placed. -/
lemma containsInOrder_flatten (l : List Str) (pre : Str) :
    containsInOrder (pre ++ (l.map (fun m => m ++ ['\n'])).flatten) l := by
  induction l generalizing pre with
  | nil => trivial
  | cons m ms ih =>
      refine ⟨pre, ['\n'] ++ (ms.map (fun m => m ++ ['\n'])).flatten, ?_, ih ['\n']⟩
      simp [List.append_assoc]

/-- The combined message is never the empty string (it starts with the base
message). -/
lemma aggregate_message_ne_nil (l : List Str) : aggregate_message l ≠ [] := by
  unfold aggregate_message
  rw [aggregate_fold_eq]
  intro h
  rcases List.append_eq_nil.mp h with ⟨h1, -⟩
  exact absurd h1 (by decide)

/-- C3: the aggregated error's combined message contains the contained
messages in their original order; it is computed on first retrieval and
cached, and after any later mutation of the error list a further retrieval
still returns the originally cached message. -/
theorem aggregated_error_message_order_and_caching :
    ∀ l l' : List Str,
      containsInOrder ((mamba_aggregated_error.ofList l).what).1 l
      ∧ ((mamba_aggregated_error.ofList l).what).2.m_aggregated_message
          = ((mamba_aggregated_error.ofList l).what).1
      ∧ ((((mamba_aggregated_error.ofList l).what).2.setList l').what).1
          = ((mamba_aggregated_error.ofList l).what).1 := by
  intro l l'
  have hfirst : ((mamba_aggregated_error.ofList l).what)
      = (aggregate_message l,
          { m_error_list := l, m_aggregated_message := aggregate_message l }) := by
    simp [mamba_aggregated_error.what, mamba_aggregated_error.ofList]
  refine ⟨?_, ?_, ?_⟩
  · rw [hfirst]
    show containsInOrder (aggregate_message l) l
    unfold aggregate_message
    rw [aggregate_fold_eq]
    exact containsInOrder_flatten l m_base_message
  · rw [hfirst]
  · rw [hfirst]
    simp [mamba_aggregated_error.setList, mamba_aggregated_error.what,
      aggregate_message_ne_nil l]

/-! ### Thread counter -/

/-- Value of `thread_count` after a trace equals the number of `inc` events minus the
number of `dec` events. -/
lemma threadCount_eq_counts (tr : List WEvent) :
    threadCount tr =
      (tr.countP (fun e => match e with | .inc _ => true | .dec _ => false) : Int)
        - (tr.countP (fun e => match e with | .inc _ => false | .dec _ => true) : Int) := by
  suffices h : ∀ (c : Int),
      tr.foldl WEvent.applyCount c =
        c + (tr.countP (fun e => match e with | .inc _ => true | .dec _ => false) : Int)
          - (tr.countP (fun e => match e with | .inc _ => false | .dec _ => true) : Int) by
    simpa [threadCount] using h 0
  induction tr with
  | nil => intro c; simp
  | cons e t ih =>
      intro c
      cases e with
      | inc w =>
          simp only [List.foldl_cons, List.countP_cons, WEvent.applyCount, ih]
          push_cast
          ring
      | dec w =>
          simp only [List.foldl_cons, List.countP_cons, WEvent.applyCount, ih]
          push_cast
          ring

/-- If every event of `l` belongs to a worker `< N`, the number of `inc`
events in `l` is the sum over workers of the per-worker `inc` counts, and
likewise for `dec`. -/
lemma countP_eq_sum_count (l : List WEvent) (N : Nat) (h : ∀ e ∈ l, e.wid < N) :
    l.countP (fun e => match e with | .inc _ => true | .dec _ => false)
        = ∑ w ∈ Finset.range N, l.count (WEvent.inc w)
      ∧ l.countP (fun e => match e with | .inc _ => false | .dec _ => true)
        = ∑ w ∈ Finset.range N, l.count (WEvent.dec w) := by
  induction l with
  | nil => simp
  | cons e t ih =>
      have ht : ∀ e ∈ t, e.wid < N := fun x hx => h x (List.mem_cons_of_mem _ hx)
      obtain ⟨ih1, ih2⟩ := ih ht
      have hw : e.wid < N := h e (List.mem_cons_self _ _)
      cases e with
      | inc w =>
          have hcnt : ∀ x, (WEvent.inc w :: t).count (WEvent.inc x)
              = t.count (WEvent.inc x) + if w = x then 1 else 0 := by
            intro x
            rw [List.count_cons]
            by_cases hx : w = x <;> simp [hx]
          have hcnt' : ∀ x, (WEvent.inc w :: t).count (WEvent.dec x)
              = t.count (WEvent.dec x) := by
            intro x
            rw [List.count_cons]
            simp
          constructor
          · rw [List.countP_cons]
            simp only [ih1]
            rw [Finset.sum_congr rfl (fun x _ => hcnt x), Finset.sum_add_distrib,
              Finset.sum_ite_eq (Finset.range N) w (fun _ => 1)]
            simp only [WEvent.wid] at hw
            simp [Finset.mem_range.mpr hw]
          · rw [List.countP_cons]
            simp only [ih2]
            rw [Finset.sum_congr rfl (fun x _ => hcnt' x)]
            simp
      | dec w =>
          have hcnt : ∀ x, (WEvent.dec w :: t).count (WEvent.dec x)
              = t.count (WEvent.dec x) + if w = x then 1 else 0 := by
            intro x
            rw [List.count_cons]
            by_cases hx : w = x <;> simp [hx]
          have hcnt' : ∀ x, (WEvent.dec w :: t).count (WEvent.inc x)
              = t.count (WEvent.inc x) := by
            intro x
            rw [List.count_cons]
            simp
          constructor
          · rw [List.countP_cons]
            simp only [ih1]
            rw [Finset.sum_congr rfl (fun x _ => hcnt' x)]
            simp
          · rw [List.countP_cons]
            simp only [ih2]
            rw [Finset.sum_congr rfl (fun x _ => hcnt x), Finset.sum_add_distrib,
              Finset.sum_ite_eq (Finset.range N) w (fun _ => 1)]
            simp only [WEvent.wid] at hw
            simp [Finset.mem_range.mpr hw]

/-- On a well-formed trace, the counter after any prefix is the sum over
workers of (their `inc` count minus their `dec` count) in that prefix. -/
lemma threadCount_take_eq_sum (N : Nat) (tr : List WEvent) (hwf : wfTrace N tr) (k : Nat) :
    threadCount (tr.take k)
      = ∑ w ∈ Finset.range N,
          (((tr.take k).count (WEvent.inc w) : Int)
            - ((tr.take k).count (WEvent.dec w) : Int)) := by
  obtain ⟨-, hmem, -, -⟩ := hwf
  have hmem' : ∀ e ∈ tr.take k, e.wid < N := fun e he => hmem e (List.mem_of_mem_take he)
  obtain ⟨h1, h2⟩ := countP_eq_sum_count (tr.take k) N hmem'
  rw [threadCount_eq_counts, h1, h2]
  push_cast
  rw [Finset.sum_sub_distrib]

/-- On a well-formed trace, in every prefix each worker has deregistered at
most as many times as it has registered. -/
lemma wfTrace_take_dec_le_inc (N : Nat) (tr : List WEvent) (hwf : wfTrace N tr)
    (w : Nat) (hw : w < N) (k : Nat) :
    (tr.take k).count (WEvent.dec w) ≤ (tr.take k).count (WEvent.inc w) := by
  obtain ⟨hlen, -, hone, hpre⟩ := hwf
  rcases lt_or_ge k tr.length with hk | hk
  · exact hpre w hw k hk
  · rw [List.take_of_length_le hk]
    exact le_of_eq ((hone w hw).2.trans (hone w hw).1.symm)

/-- Per-worker registration counts in a prefix are at most one. -/
lemma wfTrace_take_count_le_one (N : Nat) (tr : List WEvent) (hwf : wfTrace N tr)
    (w : Nat) (hw : w < N) (k : Nat) (e : WEvent)
    (he : e = WEvent.inc w ∨ e = WEvent.dec w) :
    (tr.take k).count e ≤ 1 := by
  obtain ⟨-, -, hone, -⟩ := hwf
  have hsub := (List.take_sublist k tr).count_le e
  rcases he with he | he <;> subst he
  · exact hsub.trans (le_of_eq (hone w hw).1)
  · exact hsub.trans (le_of_eq (hone w hw).2)

/-- C5: for every execution in which each of `N` workers registers once and
deregisters exactly once afterwards, the thread counter is never negative at
any point, and — once all `N` workers have registered — the counter is zero
(the condition under which `wait_for_all_threads` can return) exactly when all
`N` workers have deregistered: the wait returns only after all of them, and
never before. -/
theorem wait_for_all_threads_rendezvous :
    ∀ (N : Nat) (tr : List WEvent), wfTrace N tr →
      (∀ k, 0 ≤ threadCount (tr.take k))
      ∧ (∀ k, (∀ w < N, (tr.take k).count (WEvent.inc w) = 1) →
          (wait_for_all_threads_returns (threadCount (tr.take k))
            ↔ ∀ w < N, (tr.take k).count (WEvent.dec w) = 1)) := by
  intro N tr hwf
  have hterm : ∀ k, ∀ w ∈ Finset.range N,
      (0 : Int) ≤ ((tr.take k).count (WEvent.inc w) : Int)
        - ((tr.take k).count (WEvent.dec w) : Int) := by
    intro k w hw
    have := wfTrace_take_dec_le_inc N tr hwf w (Finset.mem_range.mp hw) k
    omega
  constructor
  · intro k
    rw [threadCount_take_eq_sum N tr hwf k]
    exact Finset.sum_nonneg (hterm k)
  · intro k hinc
    unfold wait_for_all_threads_returns
    rw [threadCount_take_eq_sum N tr hwf k]
    rw [Finset.sum_eq_zero_iff_of_nonneg (hterm k)]
    constructor
    · intro hz w hw
      have := hz w (Finset.mem_range.mpr hw)
      have := hinc w hw
      omega
    · intro hdec w hw
      have h1 := hinc w (Finset.mem_range.mp hw)
      have h2 := hdec w (Finset.mem_range.mp hw)
      omega

/-- Concrete instantiation of `wait_for_all_threads_rendezvous`: two workers,
trace `inc 0, inc 1, dec 1, dec 0`; after three events the counter is still
non-negative, and after all four it being zero yields that both workers have
deregistered. -/
theorem wait_for_all_threads_rendezvous_witness :
    0 ≤ threadCount ([WEvent.inc 0, WEvent.inc 1, WEvent.dec 1, WEvent.dec 0].take 3)
    ∧ ∀ w < 2, ([WEvent.inc 0, WEvent.inc 1, WEvent.dec 1, WEvent.dec 0].take 4).count
        (WEvent.dec w) = 1 :=
  ⟨(wait_for_all_threads_rendezvous 2 _ (by decide)).1 3,
   ((wait_for_all_threads_rendezvous 2 _ (by decide)).2 4 (by decide)).mp (by decide)⟩

/-! ### Transaction pool-binding contract -/

/-- C4: every transaction operation taking a universe asserts that it is the
one the transaction is bound to: a mismatched universe makes `step_type`,
`step_newer`, `step_olders`, `order`, `classify` and `classify_pkgs` fail as a
programming-contract violation (a failed `assert`), not a user-facing error;
`from_solver` likewise fails when the solver result is bound to a different
universe; and `from_solvables` binds the new transaction to the given universe
by construction, so the asserted binding holds for it always. -/
theorem universe_operations_assert_bound_pool :
    ∀ (pool : ObjPool) (trans : ObjTransaction) (solver : ObjSolver)
      (ty : Nat → Nat → Nat) (obs : Nat → Nat) (allObs : Nat → List Nat)
      (cls : Nat → List Nat) (clp : Nat → Nat → Nat → Nat → List Nat)
      (step mode flag stype from_id to_id : Nat) (ids : List Nat),
      (pool.ptr ≠ trans.pool →
        trans.step_type ty pool step mode = Except.error .contractViolation
        ∧ trans.step_newer obs pool step = Except.error .contractViolation
        ∧ trans.step_olders allObs pool step = Except.error .contractViolation
        ∧ trans.order pool flag = Except.error .contractViolation
        ∧ trans.classify cls pool mode = Except.error .contractViolation
        ∧ trans.classify_pkgs clp pool stype from_id to_id mode
            = Except.error .contractViolation)
      ∧ (pool.ptr ≠ solver.pool →
          ObjTransaction.from_solver pool solver = Except.error .contractViolation)
      ∧ (ObjTransaction.from_solvables pool ids).pool = pool.ptr := by
  intro pool trans solver ty obs allObs cls clp step mode flag stype from_id to_id ids
  refine ⟨fun hne => ?_, fun hne => ?_, rfl⟩
  · refine ⟨?_, ?_, ?_, ?_, ?_, ?_⟩ <;>
      simp [ObjTransaction.step_type, ObjTransaction.step_newer,
        ObjTransaction.step_olders, ObjTransaction.order, ObjTransaction.classify,
        ObjTransaction.classify_pkgs, assert_same_pool, hne, Except.map]
  · simp [ObjTransaction.from_solver, assert_same_pool, hne, Except.map]

/-- Concrete instantiation of `universe_operations_assert_bound_pool`: a pool
with identity 1 against a transaction and a solver bound to pool 2. -/
theorem universe_operations_assert_bound_pool_witness :
    (ObjTransaction.mk 2 []).order ⟨1, [], []⟩ 0 = Except.error .contractViolation
    ∧ ObjTransaction.from_solver ⟨1, [], []⟩ ⟨2, []⟩ = Except.error .contractViolation :=
  have h := universe_operations_assert_bound_pool ⟨1, [], []⟩ ⟨2, []⟩ ⟨2, []⟩
    (fun _ _ => 0) (fun _ => 0) (fun _ => []) (fun _ => []) (fun _ _ _ _ => [])
    0 0 0 0 0 0 []
  ⟨(h.1 (by decide)).2.2.2.1, h.2.1 (by decide)⟩

/-! ### `step_newer` / `step_olders` outside their precondition -/

/-- C10: with the matching universe, `step_newer` and `step_olders` are total:
they always return an answer.  For a step whose solvable is absent from the
universe or not an installed package, `step_newer` returns no result, and any
result it does return is a non-zero id; symmetrically, for a step whose
solvable is absent or is an installed package, `step_olders` returns the empty
set. -/
theorem step_newer_olders_total_outside_precondition :
    ∀ (pool : ObjPool) (trans : ObjTransaction) (obs : Nat → Nat)
      (allObs : Nat → List Nat) (step : Nat),
      pool.ptr = trans.pool →
      (∃ v, trans.step_newer obs pool step = Except.ok v)
      ∧ (∃ q, trans.step_olders allObs pool step = Except.ok q)
      ∧ ((pool.get_solvable step = none
            ∨ ∃ s, pool.get_solvable step = some s ∧ s.installed = false) →
          trans.step_newer obs pool step = Except.ok none)
      ∧ (∀ r, trans.step_newer obs pool step = Except.ok (some r) → r ≠ 0)
      ∧ ((pool.get_solvable step = none
            ∨ ∃ s, pool.get_solvable step = some s ∧ s.installed = true) →
          trans.step_olders allObs pool step = Except.ok []) := by
  intro pool trans obs allObs step hp
  have hassert : assert_same_pool pool trans = Except.ok () := by
    simp [assert_same_pool, hp]
  refine ⟨?_, ?_, ?_, ?_, ?_⟩
  · rcases hv : trans.step_newer obs pool step with e | v
    · exact absurd hv (by simp [ObjTransaction.step_newer, hassert, Except.map])
    · exact ⟨v, rfl⟩
  · rcases hv : trans.step_olders allObs pool step with e | v
    · exact absurd hv (by simp [ObjTransaction.step_olders, hassert, Except.map])
    · exact ⟨v, rfl⟩
  · rintro (hs | ⟨s, hs, hi⟩)
    · simp [ObjTransaction.step_newer, hassert, Except.map, hs]
    · simp [ObjTransaction.step_newer, hassert, Except.map, hs, hi]
  · intro r hr
    simp only [ObjTransaction.step_newer, hassert, Except.map] at hr
    rcases hs : pool.get_solvable step with - | s
    · rw [hs] at hr
      simp at hr
    · rw [hs] at hr
      simp only [Except.ok.injEq] at hr
      by_cases hi : s.installed = true
      · simp only [hi, if_true] at hr
        by_cases hz : obs step = 0
        · simp [hz] at hr
        · simp only [ne_eq, hz, not_false_iff, if_true, Option.some.injEq] at hr
          omega
      · simp [hi] at hr
  · rintro (hs | ⟨s, hs, hi⟩)
    · simp [ObjTransaction.step_olders, hassert, Except.map, hs]
    · simp [ObjTransaction.step_olders, hassert, Except.map, hs, hi]

/-- Concrete instantiation of `step_newer_olders_total_outside_precondition`:
a universe with a single installed solvable 1; step 7 is absent, so
`step_newer` yields no result and `step_olders` yields the empty set. -/
theorem step_newer_olders_witness :
    (ObjTransaction.mk 1 [7]).step_newer (fun _ => 9) ⟨1, [(1, ⟨true⟩)], []⟩ 7
        = Except.ok none
    ∧ (ObjTransaction.mk 1 [1]).step_olders (fun _ => [3]) ⟨1, [(1, ⟨true⟩)], []⟩ 1
        = Except.ok [] :=
  have h1 := step_newer_olders_total_outside_precondition ⟨1, [(1, ⟨true⟩)], []⟩
    ⟨1, [7]⟩ (fun _ => 9) (fun _ => [3]) 7 rfl
  have h2 := step_newer_olders_total_outside_precondition ⟨1, [(1, ⟨true⟩)], []⟩
    ⟨1, [1]⟩ (fun _ => 9) (fun _ => [3]) 1 rfl
  ⟨h1.2.2.1 (Or.inl (by decide)),
   h2.2.2.2.2 (Or.inr ⟨⟨true⟩, by decide, rfl⟩)⟩

/-! ### Transaction copies are deep clones -/

/-- Stores at a different handle do not change a lookup. -/
lemma SolvMem.lookup_store_ne (m : SolvMem) (h h' : Nat) (t : ObjTransaction)
    (hne : h ≠ h') :
    (m.store h' t).lookup h = m.lookup h := by
  unfold SolvMem.store SolvMem.lookup
  induction m.data with
  | nil => rfl
  | cons p rest ih =>
      by_cases hp : p.1 = h'
      · simp only [List.map_cons, if_pos hp, List.find?_cons]
        have : (decide (h' = h)) = false := by simp [Ne.symm hne]
        rw [this]
        have : (decide (p.1 = h)) = false := by simp [hp, Ne.symm hne]
        rw [this]
        exact ih
      · simp only [List.map_cons, if_neg hp, List.find?_cons]
        by_cases hph : p.1 = h
        · simp [hph]
        · simp only [decide_eq_false hph, ih]

/-- A handle that is looked up successfully is a live handle. -/
lemma SolvMem.lookup_some_lt_next (m : SolvMem) (h : Nat) (t : ObjTransaction)
    (hwf : m.wf) (hl : m.lookup h = some t) : h < m.next := by
  unfold SolvMem.lookup at hl
  rcases hfind : m.data.find? (fun p => p.1 = h) with - | p
  · rw [hfind] at hl
    simp at hl
  · have hmem := List.mem_of_find?_eq_some hfind
    have hph : p.1 = h := by
      have := List.find?_some hfind
      simpa using this
    rw [← hph]
    exact hwf p hmem

/-- Looking up an old handle in the extended heap created by a clone gives the
original contents. -/
lemma SolvMem.lookup_extend (m : SolvMem) (h : Nat) (t : ObjTransaction)
    (hne : m.next ≠ h) :
    SolvMem.lookup ⟨(m.next, t) :: m.data, m.next + 1⟩ h = m.lookup h := by
  unfold SolvMem.lookup
  simp only [List.find?_cons, decide_eq_false hne]

/-- C9: copy construction is a deep clone.  For a well-formed heap, cloning
the transaction at handle `h` yields a fresh handle with equal contents, and
any mutation of the clone — an arbitrary overwrite, or running `order` on it —
leaves the original transaction's contents (its step set and sequence)
unchanged. -/
theorem copy_construct_deep_clone_frame :
    ∀ (m : SolvMem) (h : Nat) (pool : ObjPool) (flag : Nat) (m' : SolvMem) (h' : Nat),
      m.wf → copy_construct m h = some (m', h') →
      h' ≠ h
      ∧ m'.lookup h' = m.lookup h
      ∧ (∀ t, (m'.store h' t).lookup h = m.lookup h)
      ∧ (order_at pool m' h' flag).lookup h = m.lookup h := by
  intro m h pool flag m' h' hwf hcopy
  rcases hl : m.lookup h with - | t
  · rw [copy_construct, hl] at hcopy
    simp at hcopy
  · rw [copy_construct, hl] at hcopy
    simp only [Option.map_some'] at hcopy
    injection hcopy with hcopy
    injection hcopy with h1 h2
    have hm' : m' = ⟨(m.next, t) :: m.data, m.next + 1⟩ := h1.symm
    have hh' : h' = m.next := h2.symm
    have hlt : h < m.next := SolvMem.lookup_some_lt_next m h t hwf hl
    have hne : h' ≠ h := by omega
    have hext : m'.lookup h = some t := by
      rw [hm']
      exact (SolvMem.lookup_extend m h t (by omega)).trans hl
    have hlook' : m'.lookup h' = some t := by
      rw [hm', hh']
      unfold SolvMem.lookup
      simp
    have hstore : ∀ t'', (m'.store h' t'').lookup h = some t := by
      intro t''
      rw [SolvMem.lookup_store_ne m' h h' t'' (by omega)]
      exact hext
    refine ⟨hne, hlook', hstore, ?_⟩
    unfold order_at
    rw [hlook']
    rcases ho : t.order pool flag with e | t'
    · simp only [ho]
      exact hext
    · simp only [ho]
      exact hstore t'

/-- Concrete instantiation of `copy_construct_deep_clone_frame`: a heap with
one transaction at handle 0, cloned to handle 1 and reordered there. -/
theorem copy_construct_deep_clone_frame_witness :
    (1 : Nat) ≠ 0
    ∧ SolvMem.lookup
        { data := [(1, ObjTransaction.mk 1 [2, 1]), (0, ObjTransaction.mk 1 [2, 1])],
          next := 2 } 1
        = SolvMem.lookup { data := [(0, ObjTransaction.mk 1 [2, 1])], next := 1 } 0 :=
  have h := copy_construct_deep_clone_frame
    { data := [(0, ObjTransaction.mk 1 [2, 1])], next := 1 } 0
    ⟨1, [(1, ⟨false⟩), (2, ⟨false⟩)], []⟩ 0
    { data := [(1, ObjTransaction.mk 1 [2, 1]), (0, ObjTransaction.mk 1 [2, 1])],
      next := 2 } 1
    (by decide) (by decide)
  ⟨h.1, h.2.1⟩

/-! ### Ordering: determinism and tie-breaking -/

/-- A successful `orderAux` run emits exactly the remaining steps, each
once. -/
lemma orderAux_some_toFinset (pool : ObjPool) :
    ∀ (fuel : Nat) (r : Finset Nat) (l : List Nat),
      orderAux pool fuel r = some l → l.toFinset = r ∧ l.Nodup := by
  intro fuel
  induction fuel with
  | zero =>
      intro r l h
      unfold orderAux at h
      split_ifs at h with hr
      · injection h with h
        subst h
        simp [hr]
  | succ fuel ih =>
      intro r l h
      unfold orderAux at h
      split_ifs at h with hr hne
      · injection h with h
        subst h
        simp [hr]
      · rcases Option.map_eq_some'.mp h with ⟨l₀, h₀, hl⟩
        subst hl
        obtain ⟨htf, hnd⟩ := ih (r.erase ((readySteps pool r).min' hne)) l₀ h₀
        have hs_ready : (readySteps pool r).min' hne ∈ readySteps pool r :=
          Finset.min'_mem _ hne
        have hs_mem : (readySteps pool r).min' hne ∈ r := by
          have := hs_ready
          unfold readySteps at this
          exact (Finset.mem_filter.mp this).1
        constructor
        · rw [List.toFinset_cons, htf, Finset.insert_erase hs_mem]
        · rw [List.nodup_cons]
          refine ⟨fun hmem => ?_, hnd⟩
          have : (readySteps pool r).min' hne ∈ r.erase ((readySteps pool r).min' hne) := by
            rw [← htf]
            exact List.mem_toFinset.mpr hmem
          exact absurd this (Finset.not_mem_erase _ _)

/-- A successful `orderSteps` run is a duplicate-free enumeration of the step
set. -/
lemma orderSteps_some_toFinset (pool : ObjPool) (r : Finset Nat) (l : List Nat)
    (h : orderSteps pool r = some l) : l.toFinset = r ∧ l.Nodup :=
  orderAux_some_toFinset pool r.card r l h

/-- When no precedence constraint relates any two remaining steps, the
algorithm emits them in strictly ascending id order. -/
lemma orderAux_sorted_of_no_constraints (pool : ObjPool) (r₀ : Finset Nat)
    (hnc : ∀ x ∈ r₀, ∀ y ∈ r₀, mustPrecede pool x y = false) :
    ∀ (fuel : Nat) (r : Finset Nat), r ⊆ r₀ →
      ∀ l : List Nat, orderAux pool fuel r = some l → l.Sorted (· < ·) := by
  intro fuel
  induction fuel with
  | zero =>
      intro r hsub l h
      unfold orderAux at h
      split_ifs at h with hr
      · injection h with h
        subst h
        exact List.sorted_nil
  | succ fuel ih =>
      intro r hsub l h
      unfold orderAux at h
      split_ifs at h with hr hne
      · injection h with h
        subst h
        exact List.sorted_nil
      · rcases Option.map_eq_some'.mp h with ⟨l₀, h₀, hl⟩
        subst hl
        have hready : readySteps pool r = r := by
          unfold readySteps
          apply Finset.filter_true_of_mem
          intro x hx
          exact fun p hp => hnc p (hsub hp) x (hsub hx)
        have hsorted₀ := ih (r.erase ((readySteps pool r).min' hne))
          (Finset.Subset.trans (Finset.erase_subset _ _) hsub) l₀ h₀
        obtain ⟨htf, -⟩ :=
          orderAux_some_toFinset pool fuel (r.erase ((readySteps pool r).min' hne)) l₀ h₀
        rw [List.sorted_cons]
        refine ⟨fun b hb => ?_, hsorted₀⟩
        have hb' : b ∈ r.erase ((readySteps pool r).min' hne) := by
          rw [← htf]
          exact List.mem_toFinset.mpr hb
        have hbr : b ∈ r := Finset.mem_of_mem_erase hb'
        have hbne : b ≠ (readySteps pool r).min' hne := Finset.ne_of_mem_erase hb'
        have hle : (readySteps pool r).min' hne ≤ b :=
          Finset.min'_le _ b (by rw [hready]; exact hbr)
        exact lt_of_le_of_ne hle (Ne.symm hbne)

/-- Inversion of a successful `ObjTransaction.order` call: the pool matched,
the result keeps the binding, and its step sequence is the (spec-modelled)
topological order of the original step set. -/
lemma order_ok_inv (pool : ObjPool) (trans t' : ObjTransaction) (flag : Nat)
    (h : trans.order pool flag = Except.ok t') :
    pool.ptr = trans.pool ∧ t'.pool = trans.pool
      ∧ orderSteps pool trans.steps.toFinset = some t'.steps := by
  unfold ObjTransaction.order assert_same_pool at h
  by_cases hp : pool.ptr = trans.pool
  · rw [if_pos hp] at h
    rcases ho : orderSteps pool trans.steps.toFinset with - | l
    · rw [ho] at h
      have h' : (Except.error TransactionFailure.internalFailure
          : Except TransactionFailure ObjTransaction) = Except.ok t' := h
      simp at h'
    · rw [ho] at h
      have h' : Except.ok { trans with steps := l } = Except.ok t' := h
      injection h' with h''
      refine ⟨hp, ?_, ?_⟩
      · rw [← h'']
      · rw [← h'']
  · rw [if_neg hp] at h
    have h' : (Except.error TransactionFailure.contractViolation
        : Except TransactionFailure ObjTransaction) = Except.ok t' := h
    simp at h'

/-- A matching pool and a successful ordering of the step set make
`ObjTransaction.order` succeed with that sequence. -/
lemma order_ok_of (pool : ObjPool) (t : ObjTransaction) (flag : Nat) (l : List Nat)
    (hp : pool.ptr = t.pool) (ho : orderSteps pool t.steps.toFinset = some l) :
    t.order pool flag = Except.ok { t with steps := l } := by
  unfold ObjTransaction.order assert_same_pool
  rw [if_pos hp]
  simp only [ho]

/-- C1: ordering is deterministic and breaks ties by ascending step id.
Whenever `order` succeeds: re-running `order` on the resulting (unchanged)
transaction reproduces the identical output sequence; any transaction bound to
the same universe with the same step set is ordered to the identical output
sequence; and when no dependency-ordering relation holds between any two steps
of the transaction, the output sequence is strictly ascending in step id. -/
theorem order_deterministic_and_ascending_tiebreak :
    ∀ (pool : ObjPool) (trans t' : ObjTransaction) (flag flag2 : Nat),
      trans.order pool flag = Except.ok t' →
      t'.order pool flag2 = Except.ok t'
      ∧ (∀ t2 : ObjTransaction, t2.pool = trans.pool →
          t2.steps.toFinset = trans.steps.toFinset →
          t2.order pool flag = Except.ok t')
      ∧ ((∀ x ∈ trans.steps, ∀ y ∈ trans.steps, mustPrecede pool x y = false) →
          t'.steps.Sorted (· < ·)) := by
  intro pool trans t' flag flag2 h
  obtain ⟨hp, hp', ho⟩ := order_ok_inv pool trans t' flag h
  obtain ⟨htf, -⟩ := orderSteps_some_toFinset pool trans.steps.toFinset t'.steps ho
  refine ⟨?_, ?_, ?_⟩
  · have := order_ok_of pool t' flag2 t'.steps (hp.trans hp'.symm) (by rw [htf]; exact ho)
    simpa using this
  · intro t2 h2pool h2steps
    have hres := order_ok_of pool t2 flag t'.steps (hp.trans h2pool.symm)
      (by rw [h2steps]; exact ho)
    have heq : ({ t2 with steps := t'.steps } : ObjTransaction) = t' := by
      cases t2
      cases t'
      simp_all
    rw [heq] at hres
    exact hres
  · intro hnc
    refine orderAux_sorted_of_no_constraints pool trans.steps.toFinset ?_
      trans.steps.toFinset.card trans.steps.toFinset (Finset.Subset.refl _) t'.steps ho
    intro x hx y hy
    exact hnc x (List.mem_toFinset.mp hx) y (List.mem_toFinset.mp hy)

/-- Concrete instantiation of `order_deterministic_and_ascending_tiebreak`:
a universe where step 3 requires step 2 (both installs) orders `[3, 1, 2]` to
`[1, 2, 3]`, re-running reproduces it, a permuted step set gives the identical
sequence, and a constraint-free universe yields an ascending sequence. -/
theorem order_deterministic_and_ascending_tiebreak_witness :
    (ObjTransaction.mk 1 [1, 2, 3]).order
        ⟨1, [(1, ⟨false⟩), (2, ⟨false⟩), (3, ⟨false⟩)], [(3, 2)]⟩ 7
        = Except.ok (ObjTransaction.mk 1 [1, 2, 3])
    ∧ (ObjTransaction.mk 1 [2, 3, 1]).order
        ⟨1, [(1, ⟨false⟩), (2, ⟨false⟩), (3, ⟨false⟩)], [(3, 2)]⟩ 0
        = Except.ok (ObjTransaction.mk 1 [1, 2, 3])
    ∧ List.Sorted (· < ·) [1, 2] :=
  have h := order_deterministic_and_ascending_tiebreak
    ⟨1, [(1, ⟨false⟩), (2, ⟨false⟩), (3, ⟨false⟩)], [(3, 2)]⟩
    (ObjTransaction.mk 1 [3, 1, 2]) (ObjTransaction.mk 1 [1, 2, 3]) 0 7 rfl
  have h2 := order_deterministic_and_ascending_tiebreak
    ⟨1, [(1, ⟨false⟩), (2, ⟨false⟩)], []⟩
    (ObjTransaction.mk 1 [2, 1]) (ObjTransaction.mk 1 [1, 2]) 0 0 rfl
  ⟨h.1, h.2.1 (ObjTransaction.mk 1 [2, 3, 1]) rfl (by decide), h2.2.2 (by decide)⟩

end Mamba
